import Mathlib

/-!
# Verification of the ADF p-value interpolation core (`src/adf_test/src/lib.rs`)

Shallow embedding of the Rust/wasm source.  Modelling conventions:

* `f64` values are embedded as `ℚ`.  All claims under study are about
  comparisons, clamping, search control flow and exact linear-interpolation
  arithmetic on finite inputs, none of which depends on rounding.
* A JS value that may or may not coerce to a number (`JsValue::as_f64`)
  is an `Option ℚ` (`none` = not a number, e.g. a string or `undefined`).
* A lookup-table element is read with `js_sys::Array::from` and two
  `Reflect::get` calls at indices 0 and 1, so an element is modelled as a
  pair `Option ℚ × Option ℚ` (statistic, p-value).  An out-of-bounds
  `Array::get` yields `undefined`, whose field reads also give `none`.
* A Rust `panic!` (a failing `.unwrap()`) and an uncaught JS exception both
  abort the computation; functions that can abort return an `Option`,
  with `none` for the abort.
* The crate only builds for the `wasm32` target (`wasm_bindgen`), so
  `usize` is 32 bits and `isize` is `i32`; the `as isize` casts and `abs`
  wrap accordingly (release-profile two's-complement semantics; in the
  situations the theorems below exercise, debug and release agree).
-/

/-- One element of the JS lookup table: the values found at indices 0 and 1
after coercion with `as_f64` (`none` when the field is not a number). -/
abbrev Entry : Type := Option ℚ × Option ℚ

/-- `lookup_table.get(i)` followed by `Reflect::get(·, 0).as_f64()`:
`none` when the index is out of bounds or the field is not numeric. -/
def getStat (tab : List Entry) (i : ℕ) : Option ℚ :=
  (tab.get? i).bind fun e => e.1

/-- `lookup_table.get(i)` followed by `Reflect::get(·, 1).as_f64()`. -/
def getP (tab : List Entry) (i : ℕ) : Option ℚ :=
  (tab.get? i).bind fun e => e.2

/-- The `while low <= high` binary-search loop of `interpolate_p_value`
(lines 55–69 of the source), with explicit fuel so that the definition is
structural and computable.  The caller passes fuel `tab.length + 1`, which
strictly dominates the loop measure `high + 1 - low`, so the fuel never
runs out on the paths taken by the source.  Outcomes:
`some (Sum.inl p)` = early return on an exact statistic match;
`some (Sum.inr idx)` = normal termination with the recorded lower index;
`none` = panic (a `.unwrap()` on a non-numeric statistic or p-value, or the
`u32` underflow of `high = mid - 1` at `mid = 0`, which in release mode
wraps `high` to `u32::MAX` and panics on the following out-of-bounds read,
and in debug mode panics at once). -/
def bsearchGo (tab : List Entry) (x : ℚ) : ℕ → ℕ → ℕ → ℕ → Option (ℚ ⊕ ℕ)
  | 0, _, _, _ => none
  | fuel + 1, low, high, idx =>
    if low ≤ high then
      let mid := low + (high - low) / 2
      match getStat tab mid with
      | none => none
      | some s =>
        if s = x then
          match getP tab mid with
          | none => none
          | some p => some (Sum.inl p)
        else if s < x then
          bsearchGo tab x fuel (mid + 1) high mid
        else if mid = 0 then
          none
        else
          bsearchGo tab x fuel low (mid - 1) idx
    else
      some (Sum.inr idx)

/-- `interpolate_p_value` (lines 22–83 of the source).  The JS argument is
modelled as `Option (List Entry)`: `none` when `is_array` is false
(`null`, `undefined`, a number, an object, …), `some tab` for an array.
Fallback defaults follow the source: a non-numeric first statistic acts as
`NEG_INFINITY` (so the left clamp, `x ≤ -∞`, is false for every finite
query), a non-numeric first p-value defaults to `1.0`, a non-numeric last
statistic acts as `INFINITY`, a non-numeric last p-value defaults to `0.0`.
The final linear interpolation uses `ℚ` division; the bracketing lemmas
below show its divisor `x2 - x1` is always nonzero on reachable paths, so
the `q / 0 = 0` convention of `ℚ` is never exercised. -/
def interpolate_p_value (test_statistic : ℚ) (lookup_table_js : Option (List Entry)) :
    Option ℚ :=
  match lookup_table_js with
  | none => some 1
  | some tab =>
    if tab.length = 0 then some 1
    else
      let firstP := (getP tab 0).getD 1
      if (getStat tab 0).any fun s => decide (test_statistic ≤ s) then some firstP
      else
        let lastP := (getP tab (tab.length - 1)).getD 0
        if (getStat tab (tab.length - 1)).any fun s => decide (s ≤ test_statistic) then
          some lastP
        else
          match bsearchGo tab test_statistic (tab.length + 1) 0 (tab.length - 1) 0 with
          | none => none
          | some (Sum.inl p) => some p
          | some (Sum.inr idx) =>
            match getStat tab idx, getP tab idx,
                  getStat tab (idx + 1), getP tab (idx + 1) with
            | some x1, some y1, some x2, some y2 =>
              some (y1 + (test_statistic - x1) * (y2 - y1) / (x2 - x1))
            | _, _, _, _ => none

/-- A fully numeric table, as supplied by a well-formed caller. -/
def pureTable (t : List (ℚ × ℚ)) : List Entry :=
  t.map fun e => (some e.1, some e.2)

/-- Statistic of entry `i` of a numeric table (junk value out of bounds;
only used at in-bounds indices in the theorems). -/
def statAt (t : List (ℚ × ℚ)) (i : ℕ) : ℚ :=
  ((t.get? i).getD (0, 0)).1

/-- p-value of entry `i` of a numeric table. -/
def pAt (t : List (ℚ × ℚ)) (i : ℕ) : ℚ :=
  ((t.get? i).getD (0, 0)).2

theorem getStat_pureTable (t : List (ℚ × ℚ)) (i : ℕ) (h : i < t.length) :
    getStat (pureTable t) i = some (statAt t i) := by
  have h' : t[i]? = some (t.get ⟨i, h⟩) := List.getElem?_eq_getElem h
  simp [getStat, pureTable, statAt, List.get?_eq_getElem?, List.getElem?_map, h']

theorem getP_pureTable (t : List (ℚ × ℚ)) (i : ℕ) (h : i < t.length) :
    getP (pureTable t) i = some (pAt t i) := by
  have h' : t[i]? = some (t.get ⟨i, h⟩) := List.getElem?_eq_getElem h
  simp [getP, pureTable, pAt, List.get?_eq_getElem?, List.getElem?_map, h']

/-! ## The decision orchestrator `get_adf_p_value_and_stationarity` -/

/-- Rust's `str::parse::<usize>()` on the `wasm32` target: an optional
leading `+`, then one or more ASCII digits, value below `2^32`
(overflow during parsing yields `Err`). -/
def parseUsize (s : String) : Option ℕ :=
  let ds := match s.data with
    | '+' :: rest => rest
    | cs => cs
  if ds = [] then none
  else if ds.all fun c => c.isDigit then
    let v := ds.foldl (fun a c => a * 10 + (c.toNat - 48)) 0
    if v < 2 ^ 32 then some v else none
  else none

/-- Two's-complement wrap of an integer into the `i32` range
`[-2^31, 2^31)`. -/
def wrapI32 (z : ℤ) : ℤ :=
  (z + 2 ^ 31) % 2 ^ 32 - 2 ^ 31

/-- Line 100 of the source on `wasm32`:
`(sample_size as isize - n_val as isize).abs() as usize`.
Both casts reinterpret the 32-bit pattern; the subtraction and `abs` use
release-profile wrapping semantics (in every situation the theorems below
exercise no wrap occurs, so debug and release agree). -/
def rustDiff (sample_size n : ℕ) : ℕ :=
  (wrapI32 (wrapI32 sample_size - wrapI32 n)).natAbs

/-- One iteration of the key-scanning loop (lines 96–107): skip a
non-string key (`as_string` = `none`), skip an unparsable key, otherwise
update `(closest_n, min_diff)` when the distance strictly improves. -/
def selStep (sample_size : ℕ) (acc : ℕ × ℕ) (key : Option String) : ℕ × ℕ :=
  match key with
  | none => acc
  | some str =>
    match parseUsize str with
    | none => acc
    | some n =>
      let diff := rustDiff sample_size n
      if diff < acc.2 then (n, diff) else acc

/-- The whole scan, folding over `Reflect::own_keys` of the critical-values
map (modelled as the key list in enumeration order), starting from
`closest_n = 0`, `min_diff = usize::MAX = 2^32 - 1`. -/
def selectClosest (sample_size : ℕ) (keys : List (Option String)) : ℕ × ℕ :=
  keys.foldl (selStep sample_size) (0, 2 ^ 32 - 1)

/-- A critical-values record: the `as_f64` coercions of its `"1%"`, `"5%"`
and `"10%"` properties (`none` = property absent or not numeric). -/
abbrev CritEntry : Type := Option ℚ × Option ℚ × Option ℚ

/-- The critical-values map: JS object keys (in enumeration order; `none`
= a symbol key, rejected by `as_string`) paired with their values.  A value
is `some ce` when it is a JS object (so `Reflect::get` of its properties
succeeds) and `none` when it is a non-object (`null`, `undefined`, a
primitive), on which `Reflect::get` throws. -/
abbrev CritMap : Type := List (Option String × Option CritEntry)

/-- The p-value-tables map; a value is `some tab` when it is an array and
`none` otherwise (`interpolate_p_value` then takes its non-array branch). -/
abbrev PMap : Type := List (Option String × Option (List Entry))

/-- First-match association lookup, as JS property access by string key. -/
def jsLookup {α : Type} (m : List (Option String × α)) (k : String) : Option α :=
  (m.find? fun kv => kv.1 = some k).map fun kv => kv.2

/-- Lines 109–113 and 123–127: when `closest_n > 0`, fetch the value under
the key `closest_n.to_string()` (an absent key gives `undefined`, i.e. a
non-object/non-array); when `closest_n = 0`, the value is `JsValue::NULL`. -/
def resolveObj {α : Type} (closest_n : ℕ) (m : List (Option String × Option α)) :
    Option α :=
  if 0 < closest_n then
    match jsLookup m (toString closest_n) with
    | some v => v
    | none => none
  else none

/-- The `AdfResult` record (statistic, p-value, the `1%`/`5%`/`10%`
critical-value triple written to the output object, and the verdict). -/
structure AdfResult where
  statistic : ℚ
  p_value : ℚ
  critical_values : ℚ × ℚ × ℚ
  is_stationary : Bool
deriving DecidableEq

/-- Lines 115–146: everything after the nearest-key selection.  The three
critical values fall back per-field to `-3.43`, `-2.86`, `-2.57`; but when
the resolved critical data is not an object (`closest_n = 0`, an absent
key, or a non-object value), line 118's `Reflect::get(...).unwrap()`
panics, which `none` records.  A panic inside the interpolation also
propagates. -/
def adfTail (test_statistic : ℚ) (critData : Option CritEntry)
    (p_js : Option (List Entry)) : Option AdfResult :=
  match critData with
  | none => none
  | some ce =>
    let critical_1_percent := ce.1.getD (-343 / 100)
    let critical_5_percent := ce.2.1.getD (-143 / 50)
    let critical_10_percent := ce.2.2.getD (-257 / 100)
    match interpolate_p_value test_statistic p_js with
    | none => none
    | some p_value =>
      some { statistic := test_statistic
             p_value := p_value
             critical_values :=
               (critical_1_percent, critical_5_percent, critical_10_percent)
             is_stationary :=
               decide (p_value ≤ 1 / 20 ∧ test_statistic < critical_5_percent) }

/-- `get_adf_p_value_and_stationarity` (lines 86–147): select the nearest
sample-size key from the critical-values map, resolve both maps under the
decimal rendering of the selected key, and assemble the result. -/
def get_adf_p_value_and_stationarity (test_statistic : ℚ) (sample_size : ℕ)
    (cmap : CritMap) (pmap : PMap) : Option AdfResult :=
  let closest_n := (selectClosest sample_size (cmap.map fun kv => kv.1)).1
  adfTail test_statistic (resolveObj closest_n cmap) (resolveObj closest_n pmap)

/-! ## Basic facts about numeric tables -/

theorem pureTable_length (t : List (ℚ × ℚ)) : (pureTable t).length = t.length := by
  simp [pureTable]

theorem statAt_eq_get (t : List (ℚ × ℚ)) (i : ℕ) (h : i < t.length) :
    statAt t i = (t.get ⟨i, h⟩).1 := by
  have h' : t[i]? = some (t.get ⟨i, h⟩) := List.getElem?_eq_getElem h
  simp [statAt, List.get?_eq_getElem?, h']

theorem pAt_eq_get (t : List (ℚ × ℚ)) (i : ℕ) (h : i < t.length) :
    pAt t i = (t.get ⟨i, h⟩).2 := by
  have h' : t[i]? = some (t.get ⟨i, h⟩) := List.getElem?_eq_getElem h
  simp [pAt, List.get?_eq_getElem?, h']

/-- In a strictly sorted table the statistic is strictly increasing in the
index. -/
theorem sorted_stat_lt {t : List (ℚ × ℚ)} (hs : t.Pairwise fun a b => a.1 < b.1)
    {i j : ℕ} (hij : i < j) (hj : j < t.length) : statAt t i < statAt t j := by
  have hi : i < t.length := lt_trans hij hj
  rw [statAt_eq_get t i hi, statAt_eq_get t j hj]
  exact List.pairwise_iff_get.mp hs ⟨i, hi⟩ ⟨j, hj⟩ hij

theorem sorted_stat_le {t : List (ℚ × ℚ)} (hs : t.Pairwise fun a b => a.1 < b.1)
    {i j : ℕ} (hij : i ≤ j) (hj : j < t.length) : statAt t i ≤ statAt t j := by
  rcases Nat.lt_or_ge i j with h | h
  · exact le_of_lt (sorted_stat_lt hs h hj)
  · have : i = j := le_antisymm hij h
    simp [this]

theorem sorted_stat_lt_index {t : List (ℚ × ℚ)}
    (hs : t.Pairwise fun a b => a.1 < b.1) {i j : ℕ} (hi : i < t.length)
    ( _hj : j < t.length) (h : statAt t i < statAt t j) : i < j := by
  by_contra hc
  exact absurd (sorted_stat_le hs (Nat.not_lt.mp hc) hi) (not_le.mpr h)

theorem sorted_stat_inj {t : List (ℚ × ℚ)}
    (hs : t.Pairwise fun a b => a.1 < b.1) {i j : ℕ} (hi : i < t.length)
    (hj : j < t.length) (h : statAt t i = statAt t j) : i = j := by
  rcases Nat.lt_trichotomy i j with hij | hij | hij
  · exact absurd (sorted_stat_lt hs hij hj) (by simp [h])
  · exact hij
  · exact absurd (sorted_stat_lt hs hij hi) (by simp [h])

/-! ## Correctness of the binary-search loop

The two lemmas below are the technical core.  `bsearch_brackets` holds for
*every* numeric table — sorted or not — and shows that the loop can only
terminate normally with an index `i` such that `statAt t i < x < statAt t (i+1)`
(both entries were inspected and compared), so the bracketing interval of
the final interpolation is always strict and in bounds.  `bsearch_finds`
shows that on a strictly sorted table containing `x` the loop returns that
entry's p-value via the exact-match early return. -/

theorem bsearch_brackets :
    ∀ (fuel : ℕ) (t : List (ℚ × ℚ)) (x : ℚ) (low high idx : ℕ),
      high < t.length →
      high + 1 - low < fuel →
      low ≤ high + 1 →
      (∀ i, i < t.length → statAt t i ≠ x) →
      x < statAt t (t.length - 1) →
      statAt t idx < x →
      (idx + 1 = low ∨ (low = 0 ∧ idx = 0)) →
      (high + 1 = t.length ∨ (high + 1 < t.length ∧ x < statAt t (high + 1))) →
      ∃ i, bsearchGo (pureTable t) x fuel low high idx = some (Sum.inr i) ∧
        i + 1 < t.length ∧ statAt t i < x ∧ x < statAt t (i + 1)
  | 0, t, x, low, high, idx => by omega
  | fuel + 1, t, x, low, high, idx => by
    intro hhigh hfuel hlh hnoex hlast hidx hinvl hinvr
    by_cases hcmp : low ≤ high
    · have hmlow : low ≤ low + (high - low) / 2 := by omega
      have hmhigh : low + (high - low) / 2 ≤ high := by omega
      have hmlen : low + (high - low) / 2 < t.length := lt_of_le_of_lt hmhigh hhigh
      have hne : statAt t (low + (high - low) / 2) ≠ x := hnoex _ hmlen
      rw [bsearchGo, if_pos hcmp]
      simp only [getStat_pureTable t _ hmlen]
      rw [if_neg hne]
      by_cases hlt : statAt t (low + (high - low) / 2) < x
      · rw [if_pos hlt]
        exact bsearch_brackets fuel t x (low + (high - low) / 2 + 1) high
          (low + (high - low) / 2) hhigh (by omega) (by omega) hnoex hlast hlt
          (Or.inl rfl) hinvr
      · have hgt : x < statAt t (low + (high - low) / 2) :=
          lt_of_le_of_ne (not_lt.mp hlt) (Ne.symm hne)
        rw [if_neg hlt]
        by_cases hm0 : low + (high - low) / 2 = 0
        · exfalso
          have hl0 : low = 0 := by omega
          have hi0 : idx = 0 := by rcases hinvl with h | h <;> omega
          rw [hm0] at hgt
          rw [hi0] at hidx
          exact absurd hidx (not_lt.mpr (le_of_lt hgt))
        · rw [if_neg hm0]
          have hres := bsearch_brackets fuel t x low (low + (high - low) / 2 - 1) idx
            (by omega) (by omega) (by omega) hnoex hlast hidx hinvl
            (Or.inr ⟨by omega, by
              have : low + (high - low) / 2 - 1 + 1 = low + (high - low) / 2 := by omega
              rw [this]; exact hgt⟩)
          exact hres
    · rw [bsearchGo, if_neg hcmp]
      have hlow : low = high + 1 := by omega
      have hidxh : idx = high := by rcases hinvl with h | h <;> omega
      rcases hinvr with h | h
      · exfalso
        have : idx = t.length - 1 := by omega
        rw [this] at hidx
        exact absurd hidx (not_lt.mpr (le_of_lt hlast))
      · exact ⟨idx, rfl, by omega, hidx, by
          have : idx + 1 = high + 1 := by omega
          rw [this]; exact h.2⟩

theorem bsearch_finds :
    ∀ (fuel : ℕ) (t : List (ℚ × ℚ)) (x : ℚ) (low high idx j : ℕ),
      t.Pairwise (fun a b => a.1 < b.1) →
      high < t.length →
      high + 1 - low < fuel →
      low ≤ j → j ≤ high →
      statAt t j = x →
      bsearchGo (pureTable t) x fuel low high idx = some (Sum.inl (pAt t j))
  | 0, t, x, low, high, idx, _ => by omega
  | fuel + 1, t, x, low, high, idx, j => by
    intro hs hhigh hfuel hlj hjh hj
    have hcmp : low ≤ high := le_trans hlj hjh
    have hjlen : j < t.length := lt_of_le_of_lt hjh hhigh
    have hmlow : low ≤ low + (high - low) / 2 := by omega
    have hmhigh : low + (high - low) / 2 ≤ high := by omega
    have hmlen : low + (high - low) / 2 < t.length := lt_of_le_of_lt hmhigh hhigh
    rw [bsearchGo, if_pos hcmp]
    simp only [getStat_pureTable t _ hmlen]
    by_cases heq : statAt t (low + (high - low) / 2) = x
    · rw [if_pos heq]
      have : low + (high - low) / 2 = j :=
        sorted_stat_inj hs hmlen hjlen (heq.trans hj.symm)
      rw [this, getP_pureTable t j hjlen]
    · rw [if_neg heq]
      by_cases hlt : statAt t (low + (high - low) / 2) < x
      · rw [if_pos hlt]
        have hmj : low + (high - low) / 2 < j := by
          apply sorted_stat_lt_index hs hmlen hjlen
          rw [hj]; exact hlt
        exact bsearch_finds fuel t x (low + (high - low) / 2 + 1) high
          (low + (high - low) / 2) j hs hhigh (by omega) (by omega) hjh hj
      · have hgt : x < statAt t (low + (high - low) / 2) :=
          lt_of_le_of_ne (not_lt.mp hlt) (Ne.symm heq)
        have hjm : j < low + (high - low) / 2 := by
          apply sorted_stat_lt_index hs hjlen hmlen
          rw [hj]; exact hgt
        rw [if_neg hlt, if_neg (by omega : ¬ low + (high - low) / 2 = 0)]
        exact bsearch_finds fuel t x low (low + (high - low) / 2 - 1) idx j hs
          (by omega) (by omega) hlj (by omega) hj

/-! ## Path lemmas for `interpolate_p_value` on numeric tables -/

/-- Left clamp: `x <= first.statistic` returns the first p-value. -/
theorem interp_left (t : List (ℚ × ℚ)) (x : ℚ) (hne : t ≠ [])
    (h : x ≤ statAt t 0) :
    interpolate_p_value x (some (pureTable t)) = some (pAt t 0) := by
  have hlen : 0 < t.length := List.length_pos.mpr hne
  rw [interpolate_p_value]
  rw [if_neg (by rw [pureTable_length]; omega)]
  simp only [pureTable_length, getStat_pureTable t 0 hlen, getP_pureTable t 0 hlen,
    Option.any_some, Option.getD_some]
  rw [if_pos (by simpa using h)]

/-- Right clamp: when the left clamp does not fire and
`last.statistic <= x`, the last p-value is returned. -/
theorem interp_right (t : List (ℚ × ℚ)) (x : ℚ) (hne : t ≠ [])
    (h0 : ¬ x ≤ statAt t 0) (h1 : statAt t (t.length - 1) ≤ x) :
    interpolate_p_value x (some (pureTable t)) = some (pAt t (t.length - 1)) := by
  have hlen : 0 < t.length := List.length_pos.mpr hne
  have hlast : t.length - 1 < t.length := by omega
  rw [interpolate_p_value]
  rw [if_neg (by rw [pureTable_length]; omega)]
  simp only [pureTable_length, getStat_pureTable t 0 hlen, getP_pureTable t 0 hlen,
    getStat_pureTable t _ hlast, getP_pureTable t _ hlast,
    Option.any_some, Option.getD_some]
  rw [if_neg (by simpa using h0), if_pos (by simpa using h1)]

/-- Interior: when neither clamp fires, the result is given by the
binary-search loop. -/
theorem interp_search (t : List (ℚ × ℚ)) (x : ℚ) (hne : t ≠ [])
    (h0 : ¬ x ≤ statAt t 0) (h1 : ¬ statAt t (t.length - 1) ≤ x) :
    interpolate_p_value x (some (pureTable t)) =
      match bsearchGo (pureTable t) x (t.length + 1) 0 (t.length - 1) 0 with
      | none => none
      | some (Sum.inl p) => some p
      | some (Sum.inr idx) =>
        match getStat (pureTable t) idx, getP (pureTable t) idx,
              getStat (pureTable t) (idx + 1), getP (pureTable t) (idx + 1) with
        | some x1, some y1, some x2, some y2 =>
          some (y1 + (x - x1) * (y2 - y1) / (x2 - x1))
        | _, _, _, _ => none := by
  have hlen : 0 < t.length := List.length_pos.mpr hne
  have hlast : t.length - 1 < t.length := by omega
  rw [interpolate_p_value]
  rw [if_neg (by rw [pureTable_length]; omega)]
  simp only [pureTable_length, getStat_pureTable t 0 hlen,
    getStat_pureTable t _ hlast, Option.any_some]
  rw [if_neg (by simpa using h0), if_neg (by simpa using h1)]

/-- Exact statistic match: the matching entry's p-value is returned.  This
covers the boundary clamps (first/last entry) and the interior early
return of the search. -/
theorem interp_exact (t : List (ℚ × ℚ)) (x : ℚ) (j : ℕ)
    (hs : t.Pairwise fun a b => a.1 < b.1) (hj : j < t.length)
    (hx : statAt t j = x) :
    interpolate_p_value x (some (pureTable t)) = some (pAt t j) := by
  have hne : t ≠ [] := by
    intro h
    rw [h] at hj
    exact absurd hj (by simp)
  by_cases h0 : x ≤ statAt t 0
  · have hj0 : j = 0 := by
      by_contra hc
      have : statAt t 0 < statAt t j := sorted_stat_lt hs (by omega) hj
      rw [hx] at this
      exact absurd h0 (not_le.mpr this)
    rw [hj0] at hx ⊢
    exact interp_left t x hne h0
  · by_cases h1 : statAt t (t.length - 1) ≤ x
    · have hjl : j = t.length - 1 := by
        by_contra hc
        have : statAt t j < statAt t (t.length - 1) :=
          sorted_stat_lt hs (by omega) (by omega)
        rw [hx] at this
        exact absurd h1 (not_le.mpr this)
      rw [hjl] at hx ⊢
      exact interp_right t x hne h0 h1
    · rw [interp_search t x hne h0 h1]
      rw [bsearch_finds (t.length + 1) t x 0 (t.length - 1) 0 j hs (by omega)
        (by omega) (by omega) (by omega) hx]

/-- Interior bracketing: for a strictly sorted table, a query strictly
inside the table range and equal to no statistic lands in the unique
adjacent bracket, and the linear-interpolation formula is returned. -/
theorem interp_bracket (t : List (ℚ × ℚ)) (x : ℚ)
    (hs : t.Pairwise fun a b => a.1 < b.1)
    (h0 : statAt t 0 < x) (h1 : x < statAt t (t.length - 1))
    (hnoex : ∀ i, i < t.length → statAt t i ≠ x)
    (j : ℕ) (hjlen : j + 1 < t.length) (hjl : statAt t j < x)
    (hjr : x < statAt t (j + 1)) :
    interpolate_p_value x (some (pureTable t)) =
      some (pAt t j + (x - statAt t j) * (pAt t (j + 1) - pAt t j) /
        (statAt t (j + 1) - statAt t j)) := by
  have hne : t ≠ [] := by
    intro h
    rw [h] at hjlen
    exact absurd hjlen (by simp)
  have hlen : 0 < t.length := List.length_pos.mpr hne
  rw [interp_search t x hne (not_le.mpr h0) (not_le.mpr h1)]
  obtain ⟨i, hrun, hilen, hil, hir⟩ :=
    bsearch_brackets (t.length + 1) t x 0 (t.length - 1) 0 (by omega) (by omega)
      (by omega) hnoex h1 h0 (Or.inr ⟨rfl, rfl⟩) (Or.inl (by omega))
  rw [hrun]
  have hij : i = j := by
    rcases Nat.lt_trichotomy i j with hij | hij | hij
    · exfalso
      have : statAt t (i + 1) ≤ statAt t j := sorted_stat_le hs (by omega) (by omega)
      exact absurd hjl (not_lt.mpr (le_of_lt (lt_of_lt_of_le hir this)))
    · exact hij
    · exfalso
      have : statAt t (j + 1) ≤ statAt t i := sorted_stat_le hs (by omega) (by omega)
      exact absurd hil (not_lt.mpr (le_of_lt (lt_of_lt_of_le hjr this)))
  subst hij
  simp only [getStat_pureTable t i (by omega : i < t.length),
    getP_pureTable t i (by omega : i < t.length),
    getStat_pureTable t (i + 1) hilen, getP_pureTable t (i + 1) hilen]

/-! ## Claims C1, C2, C3 -/

/-- C1: for a strictly sorted table with at least two entries and a query
strictly between the first and last statistics, equal to no entry's
statistic, the binary search locates the adjacent bracketing pair
`(x1,y1) = table[j]`, `(x2,y2) = table[j+1]` with `x1 < x < x2` and the
result is `y1 + (x - x1) * (y2 - y1) / (x2 - x1)`; at the midpoint
`x = (x1+x2)/2` the result is `(y1+y2)/2`. -/
theorem C1_linear_interpolation (t : List (ℚ × ℚ)) (x : ℚ)
    (hs : t.Pairwise fun a b => a.1 < b.1) ( _hlen : 2 ≤ t.length)
    (h0 : statAt t 0 < x) (h1 : x < statAt t (t.length - 1))
    (hnoex : ∀ i, i < t.length → statAt t i ≠ x)
    (j : ℕ) (hjlen : j + 1 < t.length)
    (hjl : statAt t j < x) (hjr : x < statAt t (j + 1)) :
    interpolate_p_value x (some (pureTable t)) =
      some (pAt t j + (x - statAt t j) * (pAt t (j + 1) - pAt t j) /
        (statAt t (j + 1) - statAt t j)) ∧
    (x = (statAt t j + statAt t (j + 1)) / 2 →
      interpolate_p_value x (some (pureTable t)) =
        some ((pAt t j + pAt t (j + 1)) / 2)) := by
  have hmain := interp_bracket t x hs h0 h1 hnoex j hjlen hjl hjr
  refine ⟨hmain, fun hmid => ?_⟩
  rw [hmain]
  have hlt : statAt t j < statAt t (j + 1) :=
    sorted_stat_lt hs (Nat.lt_succ_self j) hjlen
  have hd : statAt t (j + 1) - statAt t j ≠ 0 :=
    sub_ne_zero.mpr (ne_of_gt hlt)
  congr 1
  rw [hmid]
  field_simp
  ring

/-- Witness for C1 at the midpoint of the bracket `(0, 1/2)`–`(2, 1/4)`:
the result is the average of the two p-values. -/
theorem C1_witness :
    interpolate_p_value 1 (some (pureTable [(0, 1 / 2), (2, 1 / 4)])) =
      some ((1 / 2 + 1 / 4) / 2 : ℚ) := by
  have h := (C1_linear_interpolation [(0, 1 / 2), (2, 1 / 4)] 1
    (by norm_num [List.pairwise_cons]) (by norm_num)
    (by norm_num [statAt]) (by norm_num [statAt])
    (by intro i hi; norm_num at hi; interval_cases i <;> norm_num [statAt])
    0 (by norm_num) (by norm_num [statAt]) (by norm_num [statAt])).2
    (by norm_num [statAt])
  simpa [pAt] using h

/-- C2 as amended: the left clamp always returns the first entry's p-value;
the right clamp returns the last entry's p-value whenever the query also
exceeds the first statistic.  (When `x` is simultaneously `≤` the first
and `≥` the last statistic — an all-equal-statistics table — the left
clamp is checked first and wins.) -/
theorem C2_clamping (t : List (ℚ × ℚ)) (x : ℚ) (hne : t ≠ [])
    ( _hs : t.Pairwise fun a b => a.1 ≤ b.1) :
    (x ≤ statAt t 0 →
      interpolate_p_value x (some (pureTable t)) = some (pAt t 0)) ∧
    (statAt t 0 < x → statAt t (t.length - 1) ≤ x →
      interpolate_p_value x (some (pureTable t)) = some (pAt t (t.length - 1))) :=
  ⟨fun h => interp_left t x hne h,
   fun h0 h1 => interp_right t x hne (not_le.mpr h0) h1⟩

/-- Counterexample to C2 as stated: the table `[(1, 1/2), (1, 1/5)]` is
sorted ascending (non-strictly) and the query `1` is `≥` the last entry's
statistic, yet the code returns the first entry's p-value `1/2`, not the
last entry's `1/5`, because the left clamp is checked first. -/
theorem C2_counterexample :
    [((1 : ℚ), (1 : ℚ) / 2), (1, 1 / 5)].Pairwise (fun a b => a.1 ≤ b.1) ∧
    statAt [((1 : ℚ), (1 : ℚ) / 2), (1, 1 / 5)] 1 ≤ 1 ∧
    interpolate_p_value 1 (some (pureTable [((1 : ℚ), (1 : ℚ) / 2), (1, 1 / 5)])) =
      some (1 / 2) ∧
    interpolate_p_value 1 (some (pureTable [((1 : ℚ), (1 : ℚ) / 2), (1, 1 / 5)])) ≠
      some (pAt [((1 : ℚ), (1 : ℚ) / 2), (1, 1 / 5)] 1) := by
  refine ⟨by norm_num [List.pairwise_cons], by norm_num [statAt], ?_, ?_⟩
  · norm_num [interpolate_p_value, pureTable, getStat, getP]
  · norm_num [interpolate_p_value, pureTable, getStat, getP, pAt]

/-- Witness for C2 (amended): a left-clamped and a right-clamped query on
the table `[(0, 1/2), (2, 1/4)]`. -/
theorem C2_witness :
    interpolate_p_value (-1) (some (pureTable [(0, 1 / 2), (2, 1 / 4)])) =
      some (1 / 2 : ℚ) ∧
    interpolate_p_value 3 (some (pureTable [(0, 1 / 2), (2, 1 / 4)])) =
      some (1 / 4 : ℚ) := by
  constructor
  · have h := (C2_clamping [(0, 1 / 2), (2, 1 / 4)] (-1) (by simp)
      (by norm_num [List.pairwise_cons])).1 (by norm_num [statAt])
    simpa [pAt] using h
  · have h := (C2_clamping [(0, 1 / 2), (2, 1 / 4)] 3 (by simp)
      (by norm_num [List.pairwise_cons])).2 (by norm_num [statAt])
      (by norm_num [statAt])
    simpa [pAt] using h

/-- C3: on a strictly sorted table, a query equal to some entry's statistic
returns exactly that entry's p-value (via the boundary clamps for the
first/last entry, or the exact-match early return — `Sum.inl` in
`bsearch_finds` — inside the binary search, which bypasses the
interpolation arithmetic). -/
theorem C3_exact_match (t : List (ℚ × ℚ)) (x : ℚ) (j : ℕ)
    (hs : t.Pairwise fun a b => a.1 < b.1) (hj : j < t.length)
    (hx : statAt t j = x) :
    interpolate_p_value x (some (pureTable t)) = some (pAt t j) :=
  interp_exact t x j hs hj hx

/-- Witness for C3: the query `2` hits the middle entry of
`[(0, 1/2), (2, 1/4), (5, 1/8)]` exactly. -/
theorem C3_witness :
    interpolate_p_value 2 (some (pureTable [(0, 1 / 2), (2, 1 / 4), (5, 1 / 8)])) =
      some (1 / 4 : ℚ) := by
  have h := C3_exact_match [(0, 1 / 2), (2, 1 / 4), (5, 1 / 8)] 2 1
    (by norm_num [List.pairwise_cons]) (by norm_num) (by norm_num [statAt])
  simpa [pAt] using h

/-! ## A recursive characterisation of the interpolant, for C9

`interpValue` is the clamped piecewise-linear function computed segment by
segment.  On strictly sorted numeric tables it agrees with
`interpolate_p_value` (theorem `interp_eq_interpValue`), and it is
monotonically non-increasing whenever the p-values are
(`interpValue_anti`). -/

def interpValue : List (ℚ × ℚ) → ℚ → ℚ
  | [], _ => 1
  | [e], _ => e.2
  | e1 :: e2 :: rest, x =>
    if x ≤ e1.1 then e1.2
    else if x ≤ e2.1 then
      e1.2 + (x - e1.1) * (e2.2 - e1.2) / (e2.1 - e1.1)
    else interpValue (e2 :: rest) x

theorem statAt_cons_succ (e : ℚ × ℚ) (l : List (ℚ × ℚ)) (i : ℕ) :
    statAt (e :: l) (i + 1) = statAt l i := rfl

theorem pAt_cons_succ (e : ℚ × ℚ) (l : List (ℚ × ℚ)) (i : ℕ) :
    pAt (e :: l) (i + 1) = pAt l i := rfl

theorem statAt_cons_zero (e : ℚ × ℚ) (l : List (ℚ × ℚ)) :
    statAt (e :: l) 0 = e.1 := rfl

theorem pAt_cons_zero (e : ℚ × ℚ) (l : List (ℚ × ℚ)) :
    pAt (e :: l) 0 = e.2 := rfl

theorem interpValue_left :
    ∀ (t : List (ℚ × ℚ)) (x : ℚ), t ≠ [] → x ≤ statAt t 0 →
      interpValue t x = pAt t 0
  | [], x => by intro h; exact absurd rfl h
  | [e], x => by intro _ _; rfl
  | e1 :: e2 :: rest, x => by
    intro _ h
    simp only [interpValue]
    rw [if_pos (show x ≤ e1.1 from h)]
    rfl

theorem interpValue_right :
    ∀ (t : List (ℚ × ℚ)) (x : ℚ),
      t.Pairwise (fun a b => a.1 < b.1) → t ≠ [] →
      statAt t 0 < x → statAt t (t.length - 1) ≤ x →
      interpValue t x = pAt t (t.length - 1)
  | [], x => by intro _ h; exact absurd rfl h
  | [e], x => by intro _ _ _ _; rfl
  | e1 :: e2 :: rest, x => by
    intro hs _ h0 hlast
    have h0' : e1.1 < x := h0
    have hd : e1.1 < e2.1 := (List.pairwise_cons.mp hs).1 e2 (by simp)
    simp only [interpValue, if_neg (not_le.mpr h0')]
    by_cases hx2 : x ≤ e2.1
    · have h21 : e2.1 ≤ statAt (e1 :: e2 :: rest) ((e1 :: e2 :: rest).length - 1) := by
        have h := sorted_stat_le hs
          (show 1 ≤ (e1 :: e2 :: rest).length - 1 by simp)
          (show (e1 :: e2 :: rest).length - 1 < (e1 :: e2 :: rest).length by simp)
        simpa [statAt_cons_succ, statAt_cons_zero] using h
      have hxe2 : x = e2.1 := le_antisymm hx2 (le_trans h21 hlast)
      have hrest : rest = [] := by
        cases rest with
        | nil => rfl
        | cons a l =>
          exfalso
          have hlt := sorted_stat_lt hs
            (show 1 < (e1 :: e2 :: a :: l).length - 1 by simp)
            (show (e1 :: e2 :: a :: l).length - 1 < (e1 :: e2 :: a :: l).length by simp)
          have : e2.1 < statAt (e1 :: e2 :: a :: l) ((e1 :: e2 :: a :: l).length - 1) := by
            simpa [statAt_cons_succ, statAt_cons_zero] using hlt
          have hlast' := hlast
          rw [hxe2] at hlast'
          exact absurd hlast' (not_le.mpr this)
      subst hrest
      rw [if_pos hx2, hxe2]
      have hdne : e2.1 - e1.1 ≠ 0 := sub_ne_zero.mpr (ne_of_gt hd)
      show _ = pAt [e1, e2] 1
      rw [pAt_cons_succ, pAt_cons_zero]
      field_simp
    · rw [if_neg hx2]
      have hres := interpValue_right (e2 :: rest) x (List.Pairwise.of_cons hs)
        (by simp) (show statAt (e2 :: rest) 0 < x from not_le.mp hx2)
        (by
          have : statAt (e1 :: e2 :: rest) ((e1 :: e2 :: rest).length - 1) =
              statAt (e2 :: rest) ((e2 :: rest).length - 1) := by
            simp [statAt_cons_succ]
          rw [← this]; exact hlast)
      rw [hres]
      simp [pAt_cons_succ]

theorem interpValue_bracket :
    ∀ (t : List (ℚ × ℚ)) (j : ℕ) (x : ℚ),
      t.Pairwise (fun a b => a.1 < b.1) →
      j + 1 < t.length → statAt t j < x → x ≤ statAt t (j + 1) →
      interpValue t x =
        pAt t j + (x - statAt t j) * (pAt t (j + 1) - pAt t j) /
          (statAt t (j + 1) - statAt t j)
  | [], j, x => by intro _ h; simp at h
  | [e], j, x => by intro _ h; simp at h
  | e1 :: e2 :: rest, 0, x => by
    intro _ _ hl hr
    have hl' : e1.1 < x := hl
    have hr' : x ≤ e2.1 := hr
    simp only [interpValue, if_neg (not_le.mpr hl'), if_pos hr']
    rfl
  | e1 :: e2 :: rest, j + 1, x => by
    intro hs hjlen hl hr
    have h1j : e2.1 ≤ statAt (e1 :: e2 :: rest) (j + 1) := by
      have := sorted_stat_le hs (show 1 ≤ j + 1 by omega) (by omega)
      simpa [statAt_cons_succ, statAt_cons_zero] using this
    have h0x : e1.1 < x := by
      have h01 : e1.1 ≤ statAt (e1 :: e2 :: rest) (j + 1) := by
        have := sorted_stat_le hs (show 0 ≤ j + 1 by omega) (by omega)
        simpa [statAt_cons_zero] using this
      exact lt_of_le_of_lt h01 hl
    have h2x : e2.1 < x := lt_of_le_of_lt h1j hl
    simp only [interpValue, if_neg (not_le.mpr h0x), if_neg (not_le.mpr h2x)]
    have hres := interpValue_bracket (e2 :: rest) j x (List.Pairwise.of_cons hs)
      (by simpa using Nat.lt_of_succ_lt_succ hjlen)
      (show statAt (e2 :: rest) j < x from hl)
      (show x ≤ statAt (e2 :: rest) (j + 1) from hr)
    rw [hres]
    simp [statAt_cons_succ, pAt_cons_succ]

/-- On a strictly sorted numeric table the code computes exactly the
clamped piecewise-linear interpolant. -/
theorem interp_eq_interpValue (t : List (ℚ × ℚ)) (x : ℚ)
    (hs : t.Pairwise fun a b => a.1 < b.1) :
    interpolate_p_value x (some (pureTable t)) = some (interpValue t x) := by
  rcases eq_or_ne t [] with rfl | hne
  · rfl
  by_cases h0 : x ≤ statAt t 0
  · rw [interp_left t x hne h0, interpValue_left t x hne h0]
  · by_cases h1 : statAt t (t.length - 1) ≤ x
    · rw [interp_right t x hne h0 h1,
        interpValue_right t x hs hne (not_le.mp h0) h1]
    · have h0' : statAt t 0 < x := not_le.mp h0
      have h1' : x < statAt t (t.length - 1) := not_le.mp h1
      have hlen2 : 2 ≤ t.length := by
        rcases Nat.lt_or_ge t.length 2 with h | h
        · exfalso
          have hl1 : t.length = 1 := by
            have := List.length_pos.mpr hne
            omega
          rw [hl1] at h1'
          exact absurd (lt_trans h0' h1') (lt_irrefl _)
        · exact h
      by_cases hex : ∃ j, j < t.length ∧ statAt t j = x
      · obtain ⟨j, hj, hxj⟩ := hex
        rw [interp_exact t x j hs hj hxj]
        have hj1 : 0 < j := by
          rcases Nat.eq_zero_or_pos j with rfl | h
          · exact absurd hxj (ne_of_lt h0')
          · exact h
        have hbr := interpValue_bracket t (j - 1) x hs (by omega)
          (by
            have := sorted_stat_lt hs (show j - 1 < j by omega) hj
            rw [hxj] at this
            exact this)
          (by
            have hq : j - 1 + 1 = j := by omega
            rw [hq, hxj])
        have hq : j - 1 + 1 = j := by omega
        rw [hq] at hbr
        rw [hbr, hxj]
        have hlt : statAt t (j - 1) < x := by
          have := sorted_stat_lt hs (show j - 1 < j by omega) hj
          rw [hxj] at this
          exact this
        have hdne : statAt t j - statAt t (j - 1) ≠ 0 := by
          rw [← hxj] at hlt
          exact sub_ne_zero.mpr (ne_of_gt hlt)
        rw [← hxj]
        congr 1
        field_simp
      · push_neg at hex
        have hnoex : ∀ i, i < t.length → statAt t i ≠ x := hex
        have hPj₀ : statAt t (Nat.findGreatest (fun j => statAt t j < x) (t.length - 1)) < x :=
          Nat.findGreatest_spec (P := fun j => statAt t j < x) (Nat.zero_le _) h0'
        have hj₀le : Nat.findGreatest (fun j => statAt t j < x) (t.length - 1) ≤ t.length - 1 :=
          Nat.findGreatest_le _
        set j₀ := Nat.findGreatest (fun j => statAt t j < x) (t.length - 1) with hj₀def
        have hj₀lt : j₀ < t.length - 1 := by
          rcases Nat.lt_or_ge j₀ (t.length - 1) with h | h
          · exact h
          · exfalso
            have hle : j₀ = t.length - 1 := le_antisymm hj₀le h
            rw [hle] at hPj₀
            exact absurd (lt_trans hPj₀ h1') (lt_irrefl _)
        have hnext : ¬ statAt t (j₀ + 1) < x := by
          have h := Nat.findGreatest_is_greatest (P := fun j => statAt t j < x)
            (n := t.length - 1) (k := j₀ + 1) (by rw [← hj₀def]; omega) (by omega)
          exact h
        have hxlt : x < statAt t (j₀ + 1) :=
          lt_of_le_of_ne (not_lt.mp hnext) (Ne.symm (hnoex (j₀ + 1) (by omega)))
        rw [interp_bracket t x hs h0' h1' hnoex j₀ (by omega) hPj₀ hxlt,
          interpValue_bracket t j₀ x hs (by omega) hPj₀ (le_of_lt hxlt)]

/-- The interpolant never exceeds the head p-value (tables sorted strictly
by statistic, p-values non-increasing). -/
theorem interpValue_le_head :
    ∀ (e : ℚ × ℚ) (rest : List (ℚ × ℚ)) (x : ℚ),
      (e :: rest).Pairwise (fun a b => a.1 < b.1) →
      (e :: rest).Pairwise (fun a b => b.2 ≤ a.2) →
      interpValue (e :: rest) x ≤ e.2
  | e, [], x => by intro _ _; exact le_refl _
  | e1, e2 :: rest, x => by
    intro hs hp
    have hd : e1.1 < e2.1 := (List.pairwise_cons.mp hs).1 e2 (by simp)
    have hp12 : e2.2 ≤ e1.2 := (List.pairwise_cons.mp hp).1 e2 (by simp)
    simp only [interpValue]
    by_cases h1 : x ≤ e1.1
    · rw [if_pos h1]
    · rw [if_neg h1]
      by_cases h2 : x ≤ e2.1
      · rw [if_pos h2]
        have hnum : (x - e1.1) * (e2.2 - e1.2) ≤ 0 :=
          mul_nonpos_iff.mpr (Or.inl ⟨le_of_lt (sub_pos.mpr (not_le.mp h1)),
            sub_nonpos.mpr hp12⟩)
        have hterm : (x - e1.1) * (e2.2 - e1.2) / (e2.1 - e1.1) ≤ 0 :=
          div_nonpos_iff.mpr (Or.inr ⟨hnum, le_of_lt (sub_pos.mpr hd)⟩)
        linarith
      · rw [if_neg h2]
        have hrec := interpValue_le_head e2 rest x (List.Pairwise.of_cons hs)
          (List.Pairwise.of_cons hp)
        exact le_trans hrec hp12

/-- Monotonicity of the interpolant: with strictly increasing statistics
and non-increasing p-values, a larger query never yields a larger value. -/
theorem interpValue_anti :
    ∀ (t : List (ℚ × ℚ)),
      t.Pairwise (fun a b => a.1 < b.1) →
      t.Pairwise (fun a b => b.2 ≤ a.2) →
      ∀ a b : ℚ, a ≤ b → interpValue t b ≤ interpValue t a
  | [] => by intro _ _ a b _; exact le_refl _
  | [e] => by intro _ _ a b _; exact le_refl _
  | e1 :: e2 :: rest => by
    intro hs hp a b hab
    have hd : e1.1 < e2.1 := (List.pairwise_cons.mp hs).1 e2 (by simp)
    have hp12 : e2.2 ≤ e1.2 := (List.pairwise_cons.mp hp).1 e2 (by simp)
    have hdpos : (0 : ℚ) < e2.1 - e1.1 := sub_pos.mpr hd
    have hdne : e2.1 - e1.1 ≠ 0 := ne_of_gt hdpos
    by_cases ha1 : a ≤ e1.1
    · have hVa : interpValue (e1 :: e2 :: rest) a = e1.2 := by
        simp only [interpValue, if_pos ha1]
      rw [hVa]
      exact interpValue_le_head e1 (e2 :: rest) b hs hp
    · by_cases ha2 : a ≤ e2.1
      · have hVa : interpValue (e1 :: e2 :: rest) a =
            e1.2 + (a - e1.1) * (e2.2 - e1.2) / (e2.1 - e1.1) := by
          simp only [interpValue, if_neg ha1, if_pos ha2]
        by_cases hb2 : b ≤ e2.1
        · have hb1 : ¬ b ≤ e1.1 := fun h => ha1 (le_trans hab h)
          have hVb : interpValue (e1 :: e2 :: rest) b =
              e1.2 + (b - e1.1) * (e2.2 - e1.2) / (e2.1 - e1.1) := by
            simp only [interpValue, if_neg hb1, if_pos hb2]
          rw [hVa, hVb]
          have hdiff : e1.2 + (b - e1.1) * (e2.2 - e1.2) / (e2.1 - e1.1) -
              (e1.2 + (a - e1.1) * (e2.2 - e1.2) / (e2.1 - e1.1)) =
              (b - a) * (e2.2 - e1.2) / (e2.1 - e1.1) := by
            field_simp
            ring
          have hnum : (b - a) * (e2.2 - e1.2) ≤ 0 :=
            mul_nonpos_iff.mpr (Or.inl ⟨sub_nonneg.mpr hab, sub_nonpos.mpr hp12⟩)
          have hterm : (b - a) * (e2.2 - e1.2) / (e2.1 - e1.1) ≤ 0 :=
            div_nonpos_iff.mpr (Or.inr ⟨hnum, le_of_lt hdpos⟩)
          linarith
        · have hb1 : ¬ b ≤ e1.1 := fun h => ha1 (le_trans hab h)
          have hVb : interpValue (e1 :: e2 :: rest) b = interpValue (e2 :: rest) b := by
            simp only [interpValue, if_neg hb1, if_neg hb2]
          rw [hVa, hVb]
          have h1 : interpValue (e2 :: rest) b ≤ e2.2 :=
            interpValue_le_head e2 rest b (List.Pairwise.of_cons hs)
              (List.Pairwise.of_cons hp)
          have h2 : e2.2 ≤ e1.2 + (a - e1.1) * (e2.2 - e1.2) / (e2.1 - e1.1) := by
            have heq : e1.2 + (a - e1.1) * (e2.2 - e1.2) / (e2.1 - e1.1) - e2.2 =
                (e1.2 - e2.2) * (e2.1 - a) / (e2.1 - e1.1) := by
              field_simp
              ring
            have hpos : 0 ≤ (e1.2 - e2.2) * (e2.1 - a) / (e2.1 - e1.1) :=
              div_nonneg (mul_nonneg (sub_nonneg.mpr hp12) (sub_nonneg.mpr ha2))
                (le_of_lt hdpos)
            linarith
          exact le_trans h1 h2
      · have hb2 : ¬ b ≤ e2.1 := fun h => ha2 (le_trans hab h)
        have hb1 : ¬ b ≤ e1.1 := fun h => ha2 (le_trans (le_trans hab h) (le_of_lt hd))
        have ha1' : ¬ a ≤ e1.1 := ha1
        have hVa : interpValue (e1 :: e2 :: rest) a = interpValue (e2 :: rest) a := by
          simp only [interpValue, if_neg ha1', if_neg ha2]
        have hVb : interpValue (e1 :: e2 :: rest) b = interpValue (e2 :: rest) b := by
          simp only [interpValue, if_neg hb1, if_neg hb2]
        rw [hVa, hVb]
        exact interpValue_anti (e2 :: rest) (List.Pairwise.of_cons hs)
          (List.Pairwise.of_cons hp) a b hab

/-- C9: when the table is strictly sorted by statistic and its p-values
are non-increasing, the interpolated p-value is monotonically
non-increasing in the query over the whole line, clamped regions
included. -/
theorem C9_monotone (t : List (ℚ × ℚ))
    (hs : t.Pairwise fun a b => a.1 < b.1)
    (hp : t.Pairwise fun a b => b.2 ≤ a.2)
    (x y : ℚ) (hxy : x ≤ y) :
    ∃ a b, interpolate_p_value x (some (pureTable t)) = some a ∧
      interpolate_p_value y (some (pureTable t)) = some b ∧ b ≤ a :=
  ⟨interpValue t x, interpValue t y, interp_eq_interpValue t x hs,
    interp_eq_interpValue t y hs, interpValue_anti t hs hp x y hxy⟩

/-- Witness for C9 on the table `[(0, 1/2), (1, 1/4)]` with queries
`0 ≤ 2`. -/
theorem C9_witness :
    ∃ a b, interpolate_p_value 0 (some (pureTable [(0, 1 / 2), (1, 1 / 4)])) = some a ∧
      interpolate_p_value 2 (some (pureTable [(0, 1 / 2), (1, 1 / 4)])) = some b ∧
      b ≤ a :=
  C9_monotone [(0, 1 / 2), (1, 1 / 4)]
    (by norm_num [List.pairwise_cons]) (by norm_num [List.pairwise_cons])
    0 2 (by norm_num)

/-! ## Correctness of the nearest-sample-size scan -/

theorem wrapI32_bounds (z : ℤ) : -2 ^ 31 ≤ wrapI32 z ∧ wrapI32 z < 2 ^ 31 := by
  have h1 : 0 ≤ (z + 2 ^ 31) % 2 ^ 32 :=
    Int.emod_nonneg _ (by norm_num)
  have h2 : (z + 2 ^ 31) % 2 ^ 32 < 2 ^ 32 :=
    Int.emod_lt_of_pos _ (by norm_num)
  unfold wrapI32
  omega

theorem rustDiff_le (s n : ℕ) : rustDiff s n ≤ 2 ^ 31 := by
  have h := wrapI32_bounds (wrapI32 s - wrapI32 n)
  unfold rustDiff
  omega

theorem wrapI32_eq (z : ℤ) (h1 : -2 ^ 31 ≤ z) (h2 : z < 2 ^ 31) : wrapI32 z = z := by
  unfold wrapI32
  omega

/-- Below `2^31` no cast or subtraction wraps, and the computed distance is
the mathematical one. -/
theorem rustDiff_eq (s n : ℕ) (hs : s < 2 ^ 31) (hn : n < 2 ^ 31) :
    rustDiff s n = ((s : ℤ) - n).natAbs := by
  unfold rustDiff
  rw [wrapI32_eq s (by omega) (by omega), wrapI32_eq n (by omega) (by omega),
    wrapI32_eq ((s : ℤ) - n) (by omega) (by omega)]

/-- Loop invariant of the key scan: once the accumulator holds a parsed key
`cn` at its own distance `md`, the fold keeps that shape, only improves
`md`, and ends no farther than any parsed key of the remaining list.
`Q` is an arbitrary property of parsed keys, preserved by the fold. -/
theorem sel_steady (s : ℕ) (Q : ℕ → Prop) :
    ∀ (keys : List (Option String)) (cn md : ℕ),
      md = rustDiff s cn → Q cn →
      (∀ k ∈ keys, ∀ str n, k = some str → parseUsize str = some n → Q n) →
      (keys.foldl (selStep s) (cn, md)).2 =
          rustDiff s (keys.foldl (selStep s) (cn, md)).1 ∧
        Q (keys.foldl (selStep s) (cn, md)).1 ∧
        (keys.foldl (selStep s) (cn, md)).2 ≤ md ∧
        ∀ k ∈ keys, ∀ str n, k = some str → parseUsize str = some n →
          (keys.foldl (selStep s) (cn, md)).2 ≤ rustDiff s n
  | [], cn, md => by
    intro hmd hq _
    refine ⟨by simpa using hmd, by simpa using hq, le_refl _, ?_⟩
    intro k hk
    simp at hk
  | k :: keys, cn, md => by
    intro hmd hq hQ
    rw [List.foldl_cons]
    cases k with
    | none =>
      have hstep : selStep s (cn, md) none = (cn, md) := rfl
      rw [hstep]
      have hres := sel_steady s Q keys cn md hmd hq
        (fun k' hk' => hQ k' (List.mem_cons_of_mem _ hk'))
      refine ⟨hres.1, hres.2.1, hres.2.2.1, ?_⟩
      intro k' hk' str n hks hp
      rcases List.mem_cons.mp hk' with rfl | hk'
      · exact absurd hks (by simp)
      · exact hres.2.2.2 k' hk' str n hks hp
    | some str0 =>
      cases hp0 : parseUsize str0 with
      | none =>
        have hstep : selStep s (cn, md) (some str0) = (cn, md) := by
          simp [selStep, hp0]
        rw [hstep]
        have hres := sel_steady s Q keys cn md hmd hq
          (fun k' hk' => hQ k' (List.mem_cons_of_mem _ hk'))
        refine ⟨hres.1, hres.2.1, hres.2.2.1, ?_⟩
        intro k' hk' str n hks hp
        rcases List.mem_cons.mp hk' with rfl | hk'
        · injection hks with h
          subst h
          rw [hp0] at hp
          exact absurd hp (by simp)
        · exact hres.2.2.2 k' hk' str n hks hp
      | some n0 =>
        have hstep : selStep s (cn, md) (some str0) =
            if rustDiff s n0 < md then (n0, rustDiff s n0) else (cn, md) := by
          simp [selStep, hp0]
        rw [hstep]
        by_cases hlt : rustDiff s n0 < md
        · rw [if_pos hlt]
          have hq0 : Q n0 := hQ (some str0) (by simp) str0 n0 rfl hp0
          have hres := sel_steady s Q keys n0 (rustDiff s n0) rfl hq0
            (fun k' hk' => hQ k' (List.mem_cons_of_mem _ hk'))
          refine ⟨hres.1, hres.2.1, le_trans hres.2.2.1 (le_of_lt hlt), ?_⟩
          intro k' hk' str n hks hp
          rcases List.mem_cons.mp hk' with rfl | hk'
          · injection hks with h
            subst h
            rw [hp0] at hp
            injection hp with h2
            subst h2
            exact hres.2.2.1
          · exact hres.2.2.2 k' hk' str n hks hp
        · rw [if_neg hlt]
          have hres := sel_steady s Q keys cn md hmd hq
            (fun k' hk' => hQ k' (List.mem_cons_of_mem _ hk'))
          refine ⟨hres.1, hres.2.1, hres.2.2.1, ?_⟩
          intro k' hk' str n hks hp
          rcases List.mem_cons.mp hk' with rfl | hk'
          · injection hks with h
            subst h
            rw [hp0] at hp
            injection hp with h2
            subst h2
            exact le_trans hres.2.2.1 (not_lt.mp hlt)
          · exact hres.2.2.2 k' hk' str n hks hp

/-- When every key is a string parsing to a value with property `Q`, the
scan returns a parsed key whose distance is minimal among all parsed
keys. -/
theorem selectClosest_min (s : ℕ) (Q : ℕ → Prop) (keys : List (Option String))
    (hne : keys ≠ [])
    (hall : ∀ k ∈ keys, ∃ str n, k = some str ∧ parseUsize str = some n ∧ Q n) :
    Q (selectClosest s keys).1 ∧
    (selectClosest s keys).2 = rustDiff s (selectClosest s keys).1 ∧
    ∀ k ∈ keys, ∀ str n, k = some str → parseUsize str = some n →
      (selectClosest s keys).2 ≤ rustDiff s n := by
  have hQ : ∀ k ∈ keys, ∀ str n, k = some str → parseUsize str = some n → Q n := by
    intro k hk str n hks hp
    obtain ⟨str', n', hks', hp', hq'⟩ := hall k hk
    rw [hks] at hks'
    injection hks' with h
    subst h
    rw [hp] at hp'
    injection hp' with h2
    subst h2
    exact hq'
  cases keys with
  | nil => exact absurd rfl hne
  | cons k0 rest =>
    obtain ⟨str0, n0, hk0, hp0, hq0⟩ := hall k0 (by simp)
    subst hk0
    have hd0 : rustDiff s n0 < 2 ^ 32 - 1 :=
      lt_of_le_of_lt (rustDiff_le s n0) (by norm_num)
    have hstep : selStep s (0, 2 ^ 32 - 1) (some str0) = (n0, rustDiff s n0) := by
      unfold selStep
      dsimp only
      rw [hp0]
      dsimp only
      rw [if_pos hd0]
    unfold selectClosest
    rw [List.foldl_cons, hstep]
    have hres := sel_steady s Q rest n0 (rustDiff s n0) rfl hq0
      (fun k' hk' => hQ k' (List.mem_cons_of_mem _ hk'))
    refine ⟨hres.2.1, hres.1, ?_⟩
    intro k hk str n hks hp
    rcases List.mem_cons.mp hk with rfl | hk
    · injection hks with h
      subst h
      rw [hp0] at hp
      injection hp with h2
      subst h2
      exact hres.2.2.1
    · exact hres.2.2.2 k hk str n hks hp

/-- C5 as amended: provided the sample size and every parsed key are below
`2^31` (so the 32-bit `as isize` casts and the subtraction in the distance
computation cannot wrap on the `wasm32` target) and each key is the
canonical decimal string of its value, the scan selects a positive key
that is present in the map and minimises `|sample_size - key|` over all
parsed keys, and the orchestrator resolves both the critical-value map and
the p-value map under that one selected key; for keys `{25, 50, 100}` and
`sample_size = 60` the selected key is `50`. -/
theorem C5_nearest_selection :
    (∀ (s : ℕ) (cmap : CritMap) (pmap : PMap) (stat : ℚ),
      s < 2 ^ 31 → cmap ≠ [] →
      (∀ kv ∈ cmap, ∃ str n, kv.1 = some str ∧ parseUsize str = some n ∧
        0 < n ∧ n < 2 ^ 31 ∧ toString n = str) →
      0 < (selectClosest s (cmap.map fun kv => kv.1)).1 ∧
      (∃ kv ∈ cmap,
        kv.1 = some (toString (selectClosest s (cmap.map fun kv => kv.1)).1)) ∧
      (∀ kv ∈ cmap, ∀ str n, kv.1 = some str → parseUsize str = some n →
        ((s : ℤ) - (selectClosest s (cmap.map fun kv => kv.1)).1).natAbs ≤
          ((s : ℤ) - n).natAbs) ∧
      get_adf_p_value_and_stationarity stat s cmap pmap =
        adfTail stat (resolveObj (selectClosest s (cmap.map fun kv => kv.1)).1 cmap)
          (resolveObj (selectClosest s (cmap.map fun kv => kv.1)).1 pmap)) ∧
    (selectClosest 60 [some "25", some "50", some "100"]).1 = 50 := by
  constructor
  · intro s cmap pmap stat hs hne hkeys
    have hres := selectClosest_min s
      (fun n => 0 < n ∧ n < 2 ^ 31 ∧ ∃ kv ∈ cmap, kv.1 = some (toString n))
      (cmap.map fun kv => kv.1)
      (by simpa using hne)
      (by
        intro k hk
        obtain ⟨kv, hkv, hkvk⟩ := List.mem_map.mp hk
        obtain ⟨str, n, h1, h2, h3, h4, h5⟩ := hkeys kv hkv
        exact ⟨str, n, by rw [← hkvk]; exact h1, h2,
          h3, h4, ⟨kv, hkv, by rw [h1, h5]⟩⟩)
    obtain ⟨⟨hpos, hlt31, hmem⟩, heq, hmin⟩ := hres
    refine ⟨hpos, hmem, ?_, rfl⟩
    intro kv hkv str n h1 h2
    obtain ⟨str', n', h1', h2', h3', h4', h5'⟩ := hkeys kv hkv
    rw [h1] at h1'
    injection h1' with hstr
    subst hstr
    rw [h2] at h2'
    injection h2' with hn
    subst hn
    have hmin' := hmin kv.1 (List.mem_map.mpr ⟨kv, hkv, rfl⟩) str n h1 h2
    rw [heq] at hmin'
    rw [rustDiff_eq s _ hs hlt31, rustDiff_eq s n hs h4'] at hmin'
    exact hmin'
  · rfl

/-- Counterexample to C5 as stated: on `wasm32` the `usize → isize` cast is
a 32-bit reinterpretation, so for `sample_size = 3221225472` (= 3·2^30,
which becomes negative as `i32`) with keys `"1"` and `"2"`, the code
selects key `1` even though key `2` is mathematically strictly closer; the
orchestrator then resolves the tables under key `1`. -/
theorem C5_counterexample :
    (selectClosest 3221225472 [some "1", some "2"]).1 = 1 ∧
    parseUsize "1" = some 1 ∧ parseUsize "2" = some 2 ∧
    ((3221225472 : ℤ) - 2).natAbs < ((3221225472 : ℤ) - 1).natAbs ∧
    get_adf_p_value_and_stationarity 0 3221225472
      [(some "1", some ((some 1 : Option ℚ), (some 1 : Option ℚ), (some 1 : Option ℚ))),
       (some "2", some ((some 2 : Option ℚ), (some 2 : Option ℚ), (some 2 : Option ℚ)))]
      [] =
      adfTail 0
        (some ((some 1 : Option ℚ), (some 1 : Option ℚ), (some 1 : Option ℚ)))
        none := by
  exact ⟨rfl, rfl, rfl, by decide, rfl⟩

/-- Witness for C5 (amended) at keys `{25, 50, 100}`, `sample_size = 60`:
the selected key `50` attains the minimal distance against every key. -/
theorem C5_witness :
    ∀ kv ∈ ([(some "25", some ((none : Option ℚ), (none : Option ℚ), (none : Option ℚ))),
      (some "50", some ((none : Option ℚ), (none : Option ℚ), (none : Option ℚ))),
      (some "100", some ((none : Option ℚ), (none : Option ℚ), (none : Option ℚ)))] : CritMap),
      ∀ str n, kv.1 = some str → parseUsize str = some n →
        ((60 : ℤ) -
          (selectClosest 60 [some "25", some "50", some "100"]).1).natAbs ≤
          ((60 : ℤ) - n).natAbs := by
  have h := (C5_nearest_selection.1 60
    [(some "25", some ((none : Option ℚ), (none : Option ℚ), (none : Option ℚ))),
     (some "50", some ((none : Option ℚ), (none : Option ℚ), (none : Option ℚ))),
     (some "100", some ((none : Option ℚ), (none : Option ℚ), (none : Option ℚ)))]
    [] 0 (by norm_num) (by simp)
    (by
      intro kv hkv
      simp only [List.mem_cons, List.not_mem_nil, or_false] at hkv
      rcases hkv with rfl | rfl | rfl
      · exact ⟨"25", 25, rfl, by decide, by decide, by decide, by decide⟩
      · exact ⟨"50", 50, rfl, by decide, by decide, by decide, by decide⟩
      · exact ⟨"100", 100, rfl, by decide, by decide, by decide, by decide⟩)).2.2.1
  exact h

/-! ## The stationarity rule (C4), boundary fallbacks (C7) and the
no-parseable-key path (C10) -/

/-- Whenever the post-selection assembly returns a result, its verdict is
exactly the conjunction of the two conditions, with the `5%` critical
value it also reports. -/
theorem adfTail_spec (stat : ℚ) (cd : Option CritEntry)
    (pjs : Option (List Entry)) (r : AdfResult)
    (h : adfTail stat cd pjs = some r) :
    r.is_stationary =
      decide (r.p_value ≤ 1 / 20 ∧ r.statistic < r.critical_values.2.1) := by
  unfold adfTail at h
  cases cd with
  | none => exact absurd h (by simp)
  | some ce =>
    cases hp : interpolate_p_value stat pjs with
    | none =>
      rw [hp] at h
      exact absurd h (by simp)
    | some p =>
      rw [hp] at h
      dsimp only at h
      injection h with h'
      subst h'
      rfl

/-- C4: the returned `is_stationary` field equals
`(p_value ≤ 0.05) AND (test_statistic < critical_5_percent)`, where the
p-value and the `5%` critical value are the ones the result itself
carries (the interpolated p-value and the selected-or-default critical
value). -/
theorem C4_stationarity_rule (stat : ℚ) (s : ℕ) (cmap : CritMap) (pmap : PMap)
    (r : AdfResult)
    (h : get_adf_p_value_and_stationarity stat s cmap pmap = some r) :
    r.is_stationary =
      decide (r.p_value ≤ 1 / 20 ∧ r.statistic < r.critical_values.2.1) :=
  adfTail_spec stat _ _ r h

/-- Witness for C4: with the `50`-keyed maps below the interpolated
p-value is `0.03` and the (defaulted) `5%` critical value is `-2.86`;
statistic `-3.0` yields `is_stationary = true` and statistic `-2.0`
yields `is_stationary = false`, each matching the decided conjunction. -/
theorem C4_witness :
    (∃ r, get_adf_p_value_and_stationarity (-3) 50
        [(some "50", some ((none : Option ℚ), (none : Option ℚ), (none : Option ℚ)))]
        [(some "50", some (pureTable [(-3, 3 / 100), (-2, 3 / 100)]))] = some r ∧
      r.is_stationary = true ∧
      r.is_stationary =
        decide (r.p_value ≤ 1 / 20 ∧ r.statistic < r.critical_values.2.1)) ∧
    (∃ r, get_adf_p_value_and_stationarity (-2) 50
        [(some "50", some ((none : Option ℚ), (none : Option ℚ), (none : Option ℚ)))]
        [(some "50", some (pureTable [(-3, 3 / 100), (-2, 3 / 100)]))] = some r ∧
      r.is_stationary = false ∧
      r.is_stationary =
        decide (r.p_value ≤ 1 / 20 ∧ r.statistic < r.critical_values.2.1)) := by
  have hint3 : interpolate_p_value (-3)
      (some (pureTable [(-3, 3 / 100), (-2, 3 / 100)])) = some (3 / 100) := by
    norm_num [interpolate_p_value, pureTable, getStat, getP]
  have hint2 : interpolate_p_value (-2)
      (some (pureTable [(-3, 3 / 100), (-2, 3 / 100)])) = some (3 / 100) := by
    norm_num [interpolate_p_value, pureTable, getStat, getP, bsearchGo]
  have hd3 : decide ((3 : ℚ) / 100 ≤ 1 / 20 ∧ (-3 : ℚ) < -143 / 50) = true := by
    rw [decide_eq_true_eq]
    constructor <;> norm_num
  have hd2 : decide ((3 : ℚ) / 100 ≤ 1 / 20 ∧ (-2 : ℚ) < -143 / 50) = false := by
    rw [decide_eq_false_iff_not, not_and]
    intro _
    norm_num
  constructor
  · have hrun : get_adf_p_value_and_stationarity (-3) 50
        [(some "50", some ((none : Option ℚ), (none : Option ℚ), (none : Option ℚ)))]
        [(some "50", some (pureTable [(-3, 3 / 100), (-2, 3 / 100)]))] =
        some ⟨-3, 3 / 100, (-343 / 100, -143 / 50, -257 / 100), true⟩ := by
      show adfTail (-3) (some (none, none, none))
        (some (pureTable [(-3, 3 / 100), (-2, 3 / 100)])) = _
      unfold adfTail
      rw [hint3]
      dsimp only
      simp only [Option.getD_none]
      rw [hd3]
    exact ⟨_, hrun, rfl, C4_stationarity_rule (-3) 50 _ _ _ hrun⟩
  · have hrun : get_adf_p_value_and_stationarity (-2) 50
        [(some "50", some ((none : Option ℚ), (none : Option ℚ), (none : Option ℚ)))]
        [(some "50", some (pureTable [(-3, 3 / 100), (-2, 3 / 100)]))] =
        some ⟨-2, 3 / 100, (-343 / 100, -143 / 50, -257 / 100), false⟩ := by
      show adfTail (-2) (some (none, none, none))
        (some (pureTable [(-3, 3 / 100), (-2, 3 / 100)])) = _
      unfold adfTail
      rw [hint2]
      dsimp only
      simp only [Option.getD_none]
      rw [hd2]
    exact ⟨_, hrun, rfl, C4_stationarity_rule (-2) 50 _ _ _ hrun⟩

/-- Counterexample to C7 as stated: one non-numeric statistic in the
middle entry makes the binary search's `as_f64().unwrap()` panic (the
computation aborts, `none`), instead of returning a value. -/
theorem C7_counterexample :
    interpolate_p_value (-2)
      (some [((some (-3) : Option ℚ), (some (1 / 10) : Option ℚ)),
        ((none : Option ℚ), (some (1 / 20) : Option ℚ)),
        ((some (-1) : Option ℚ), (some (1 / 100) : Option ℚ))]) = none := by
  norm_num [interpolate_p_value, getStat, getP, bsearchGo]

/-- C7 as amended: the tolerance for non-numeric fields is limited to the
boundary reads, where `unwrap_or` fallbacks exist.  A query caught by the
left clamp returns the default p-value `1.0` even when the first entry's
p-value is malformed, and a query caught by the right clamp returns the
default `0.0` even when the last entry's p-value is malformed; but a
malformed entry visited inside the binary search aborts the computation
(see the counterexample). -/
theorem C7_boundary_fallbacks (tab : List Entry) (x s0 sl : ℚ) :
    (tab.get? 0 = some ((some s0 : Option ℚ), (none : Option ℚ)) → x ≤ s0 →
      interpolate_p_value x (some tab) = some 1) ∧
    (tab.get? (tab.length - 1) = some ((some sl : Option ℚ), (none : Option ℚ)) →
      (∀ s : ℚ, getStat tab 0 = some s → s < x) → sl ≤ x →
      interpolate_p_value x (some tab) = some 0) := by
  constructor
  · intro h1 hx
    cases tab with
    | nil => simp at h1
    | cons e rest =>
      injection h1 with h1'
      subst h1'
      rw [interpolate_p_value]
      rw [if_neg (by simp)]
      simp only [getStat, getP, List.get?, Option.some_bind, Option.any_some,
        Option.getD_none]
      rw [if_pos (by simpa using hx)]
  · intro h1 hfirst hsl
    have hne : tab ≠ [] := by
      intro h
      rw [h] at h1
      simp at h1
    have hlen : 0 < tab.length := List.length_pos.mpr hne
    have h1' : tab[tab.length - 1]? = some ((some sl : Option ℚ), (none : Option ℚ)) := by
      rw [← List.get?_eq_getElem?]
      exact h1
    have hstatlast : getStat tab (tab.length - 1) = some sl := by
      simp [getStat, List.get?_eq_getElem?, h1']
    have hplast : getP tab (tab.length - 1) = none := by
      simp [getP, List.get?_eq_getElem?, h1']
    rw [interpolate_p_value]
    rw [if_neg (by omega)]
    have hguard1 : ((getStat tab 0).any fun s => decide (x ≤ s)) = false := by
      cases hg : getStat tab 0 with
      | none => rfl
      | some s =>
        simp only [Option.any_some]
        rw [decide_eq_false_iff_not]
        exact not_le.mpr (hfirst s hg)
    rw [hguard1]
    rw [if_neg (by simp)]
    rw [hstatlast, hplast]
    simp only [Option.any_some, Option.getD_none]
    rw [if_pos (by simpa using hsl)]

/-- Witness for C7 (amended): a left-clamped query on a table whose only
entry has a malformed p-value returns `1.0`; a right-clamped query on a
table whose last entry has a malformed p-value returns `0.0`. -/
theorem C7_witness :
    interpolate_p_value 3 (some [((some 5 : Option ℚ), (none : Option ℚ))]) = some 1 ∧
    interpolate_p_value 9 (some [((some 1 : Option ℚ), (some (1 / 2) : Option ℚ)),
      ((some 4 : Option ℚ), (none : Option ℚ))]) = some 0 := by
  constructor
  · exact (C7_boundary_fallbacks [(some 5, none)] 3 5 0).1 rfl (by norm_num)
  · refine (C7_boundary_fallbacks
      [(some 1, some (1 / 2)), (some 4, none)] 9 0 4).2 rfl ?_ (by norm_num)
    intro s hs
    have : s = 1 := by
      simp [getStat] at hs
      exact hs.symm
    rw [this]
    norm_num

/-- C10: evaluation of the code at the failing inputs.  When no key of the
critical-values map parses to a positive integer — here an empty map, and
a map whose only key is `"0"` even though it carries valid data — the
selection leaves `closest_n = 0`, the critical data resolves to `NULL`,
and line 118's `Reflect::get(...).unwrap()` panics (`none`), so no
`AdfResult` with default critical values is ever produced. -/
theorem C10_no_parseable_key_panics :
    get_adf_p_value_and_stationarity 0 10 [] [] = none ∧
    get_adf_p_value_and_stationarity 0 10
      [(some "0", some ((some (-7 / 2) : Option ℚ), (some (-3) : Option ℚ),
        (some (-5 / 2) : Option ℚ)))]
      [(some "0", some (pureTable [(-3, 3 / 100), (-2, 3 / 100)]))] = none :=
  ⟨rfl, rfl⟩

/-- C8: for every query, a non-array lookup argument and an empty array both
produce exactly the default p-value 1.0. -/
theorem C8_empty_or_nonarray_returns_one (x : ℚ) :
    interpolate_p_value x none = some 1 ∧ interpolate_p_value x (some []) = some 1 :=
  ⟨rfl, rfl⟩
